import Mathlib

/-!
Verification of the chunked streaming transcription pipeline
(`gemini-transcribe`): a shallow embedding of the time utilities,
segment planner, segment processor, pipeline orchestrator, transcript
merger and client reassembly logic, together with theorems about the
properties stated in the design document.

Modelling conventions:
* JavaScript numbers are modelled as `ℚ` (durations coming from media
  probing may be fractional) or as `ℕ`/`ℤ` where the source only ever
  produces integers.
* `Number(string)` parsing is modelled for unsigned decimal digit
  strings; every other outcome of the JS grammar (`NaN`, signed or
  fractional literals, the empty string) is collapsed into `none`.
  Theorems that depend on parsing carry a well-formedness hypothesis
  (`timestampWF`) confining them to the `mm:ss` shape that the data
  model prescribes for `TranscriptEntry.timestamp`.
* Wall-clock fields (`processedTimestamp`, produced from `Date.now()`)
  are omitted from the embedded records.
-/

/-- Transcript entry, from `src/lib/types.ts`:
`{ timestamp: string; speaker: string; text: string }`. -/
structure TranscriptEntry where
  timestamp : String
  speaker : String
  text : String
deriving DecidableEq, Repr

/-- Value of a list of decimal digit characters, most significant first
(the accumulating loop of a decimal string parser). -/
def digitsVal (l : List Char) : ℕ :=
  l.foldl (fun a c => a * 10 + (c.toNat - 48)) 0

/-- The decimal digit character for `n ≤ 9`. -/
def digitChar (n : ℕ) : Char :=
  match n with
  | 0 => '0' | 1 => '1' | 2 => '2' | 3 => '3' | 4 => '4'
  | 5 => '5' | 6 => '6' | 7 => '7' | 8 => '8' | _ => '9'

/-- Decimal digit list of a natural number (model of JS
`Number.prototype.toString` for non-negative integers). -/
def toDigits (n : ℕ) : List Char :=
  if h : n < 10 then [digitChar n]
  else toDigits (n / 10) ++ [digitChar (n % 10)]
termination_by n
decreasing_by exact Nat.div_lt_self (by omega) (by omega)

/-- Decimal string of a natural number. -/
def natToString (n : ℕ) : String := String.mk (toDigits n)

/-- Decimal string of an integer (model of JS number-to-string for
integer values). -/
def intToString (i : ℤ) : String :=
  if i < 0 then String.mk ('-' :: toDigits i.natAbs) else natToString i.toNat

/-- Model of JS `String.prototype.padStart(2, '0')`. -/
def padStart2 (s : String) : String :=
  if s.length < 2 then String.mk (List.replicate (2 - s.length) '0') ++ s else s

/-- List-level form of `padStart2`. -/
def listPad2 (l : List Char) : List Char :=
  if l.length < 2 then List.replicate (2 - l.length) '0' ++ l else l

/-- Model of JS `String.prototype.split(sep)` on character lists. -/
def splitOnChar (sep : Char) : List Char → List (List Char)
  | [] => [[]]
  | c :: rest =>
    if c = sep then [] :: splitOnChar sep rest
    else
      match splitOnChar sep rest with
      | [] => [[c]]
      | r :: rs => (c :: r) :: rs

/-- Model of JS `Number(·)` restricted to unsigned decimal digit
strings; all other inputs (which in JS produce `NaN`, `0` for the empty
string, signed or fractional values) are collapsed to `none`. -/
def jsNumDigits (l : List Char) : Option ℕ :=
  if !l.isEmpty && l.all Char.isDigit then some (digitsVal l) else none

/-- `parseTimeToSeconds`, from `src/lib/utils/audio.ts`:
split on `':'`, destructure the first two parts, `minutes * 60 + seconds`.
`none` models the `NaN` outcomes. -/
def parseTimeToSeconds? (timestamp : String) : Option ℕ :=
  match splitOnChar ':' timestamp.data with
  | m :: s :: _ =>
    match jsNumDigits m, jsNumDigits s with
    | some mm, some ss => some (mm * 60 + ss)
    | _, _ => none
  | _ => none

/-- Total version of `parseTimeToSeconds` used inside the embedded
pipeline; the default is never observed under the well-formedness
hypotheses of the theorems below. -/
def parseTimeToSeconds (timestamp : String) : ℕ :=
  (parseTimeToSeconds? timestamp).getD 0

/-- A timestamp string is well formed when the parser succeeds. -/
def timestampWF (s : String) : Prop := (parseTimeToSeconds? s).isSome = true

instance (s : String) : Decidable (timestampWF s) := by
  unfold timestampWF; infer_instance

/-- Truncation toward zero on rationals (JS number-to-integer step of
the `%` operator). -/
def jsTrunc (q : ℚ) : ℤ := if 0 ≤ q then ⌊q⌋ else -⌊-q⌋

/-- JS `%` on numbers: remainder with the sign of the dividend. -/
def jsMod (x y : ℚ) : ℚ := x - y * (jsTrunc (x / y) : ℚ)

/-- `formatTime`, from `src/lib/utils/audio.ts`:
`minutes = Math.floor(seconds / 60)`,
`remainingSeconds = Math.floor(seconds % 60)`,
both rendered with `padStart(2, '0')` and joined by `':'`. -/
def formatTime (seconds : ℚ) : String :=
  padStart2 (intToString ⌊seconds / 60⌋) ++ ":" ++
    padStart2 (intToString ⌊jsMod seconds 60⌋)

/-- `CHUNK_DURATION`, from `src/lib/utils/audio.ts` (2 minutes). -/
def CHUNK_DURATION : ℚ := 120

/-- `CHUNK_OVERLAP`, from `src/lib/utils/audio.ts` (1 minute). -/
def CHUNK_OVERLAP : ℚ := 60

theorem digitsVal_append_singleton (l : List Char) (c : Char) :
    digitsVal (l ++ [c]) = digitsVal l * 10 + (c.toNat - 48) := by
  simp [digitsVal, List.foldl_append]

theorem digitChar_toNat {n : ℕ} (h : n < 10) : (digitChar n).toNat = 48 + n := by
  interval_cases n <;> decide

theorem digitChar_isDigit {n : ℕ} (h : n < 10) : (digitChar n).isDigit = true := by
  interval_cases n <;> decide

theorem digitChar_ne_colon {n : ℕ} (h : n < 10) : digitChar n ≠ ':' := by
  interval_cases n <;> decide

theorem toDigits_ne_nil (n : ℕ) : toDigits n ≠ [] := by
  unfold toDigits
  split <;> simp

theorem digitsVal_toDigits (n : ℕ) : digitsVal (toDigits n) = n := by
  induction n using Nat.strong_induction_on with
  | _ n ih =>
    unfold toDigits
    split
    · next h =>
      simp [digitsVal, digitChar_toNat h]
    · next h =>
      rw [digitsVal_append_singleton, ih (n / 10) (Nat.div_lt_self (by omega) (by omega)),
        digitChar_toNat (Nat.mod_lt _ (by omega))]
      omega

theorem toDigits_all_digit (n : ℕ) : ∀ c ∈ toDigits n, c.isDigit = true := by
  induction n using Nat.strong_induction_on with
  | _ n ih =>
    unfold toDigits
    split
    · next h =>
      intro c hc
      simp at hc
      subst hc
      exact digitChar_isDigit h
    · next h =>
      intro c hc
      simp at hc
      rcases hc with hc | hc
      · exact ih (n / 10) (Nat.div_lt_self (by omega) (by omega)) c hc
      · subst hc
        exact digitChar_isDigit (Nat.mod_lt _ (by omega))

theorem toDigits_ne_colon (n : ℕ) : ∀ c ∈ toDigits n, c ≠ ':' := by
  intro c hc
  have := toDigits_all_digit n c hc
  intro h
  subst h
  simp at this

theorem splitOnChar_no_sep {sep : Char} {l : List Char} (h : ∀ c ∈ l, c ≠ sep) :
    splitOnChar sep l = [l] := by
  induction l with
  | nil => rfl
  | cons c rest ih =>
    have hc : c ≠ sep := h c (by simp)
    have hrest : splitOnChar sep rest = [rest] := ih (fun x hx => h x (by simp [hx]))
    simp [splitOnChar, hc, hrest]

theorem splitOnChar_cons_ne {sep c : Char} (rest : List Char) (h : c ≠ sep) :
    splitOnChar sep (c :: rest) =
      match splitOnChar sep rest with
      | [] => [[c]]
      | r :: rs => (c :: r) :: rs := by
  simp [splitOnChar, h]

theorem splitOnChar_append {sep : Char} {a b : List Char} (h : ∀ c ∈ a, c ≠ sep) :
    splitOnChar sep (a ++ sep :: b) = a :: splitOnChar sep b := by
  induction a with
  | nil => simp [splitOnChar]
  | cons c rest ih =>
    have hc : c ≠ sep := h c (by simp)
    have hrest : splitOnChar sep (rest ++ sep :: b) = rest :: splitOnChar sep b :=
      ih (fun x hx => h x (by simp [hx]))
    rw [List.cons_append, splitOnChar_cons_ne _ hc, hrest]

theorem foldl_digits_replicate_zero (k : ℕ) :
    List.foldl (fun a c => a * 10 + (c.toNat - 48)) 0 (List.replicate k '0') = 0 := by
  induction k with
  | zero => rfl
  | succ k ih => simpa [List.replicate_succ] using ih

theorem digitsVal_replicate_zero (k : ℕ) (l : List Char) :
    digitsVal (List.replicate k '0' ++ l) = digitsVal l := by
  unfold digitsVal
  rw [List.foldl_append, foldl_digits_replicate_zero]

theorem listPad2_ne_nil (l : List Char) : listPad2 l ≠ [] := by
  unfold listPad2
  split
  · next h =>
    intro hcon
    have := congrArg List.length hcon
    simp [List.length_replicate] at this
    omega
  · next h =>
    intro hcon
    subst hcon
    simp at h

theorem listPad2_mem {l : List Char} {c : Char} (hc : c ∈ listPad2 l) :
    c = '0' ∨ c ∈ l := by
  unfold listPad2 at hc
  split at hc
  · rcases List.mem_append.mp hc with h | h
    · exact Or.inl (List.eq_of_mem_replicate h)
    · exact Or.inr h
  · exact Or.inr hc

theorem digitsVal_listPad2 (l : List Char) : digitsVal (listPad2 l) = digitsVal l := by
  unfold listPad2
  split
  · exact digitsVal_replicate_zero _ l
  · rfl

theorem jsNumDigits_listPad2_toDigits (k : ℕ) :
    jsNumDigits (listPad2 (toDigits k)) = some k := by
  unfold jsNumDigits
  rw [if_pos]
  · rw [digitsVal_listPad2, digitsVal_toDigits]
  · refine (Bool.and_eq_true _ _).mpr ⟨?_, ?_⟩
    · simp only [Bool.not_eq_true']
      exact (Bool.not_eq_true _).mp
        (fun h => listPad2_ne_nil (toDigits k) (List.isEmpty_iff.mp (by simpa using h)))
    · rw [List.all_eq_true]
      intro c hc
      rcases listPad2_mem hc with h | h
      · subst h; decide
      · exact toDigits_all_digit k c h

theorem listPad2_toDigits_ne_colon (k : ℕ) : ∀ c ∈ listPad2 (toDigits k), c ≠ ':' := by
  intro c hc
  rcases listPad2_mem hc with h | h
  · subst h; decide
  · exact toDigits_ne_colon k c h

theorem string_data_append (a b : String) : (a ++ b).data = a.data ++ b.data := rfl

theorem string_mk_append (a b : List Char) :
    String.mk a ++ String.mk b = String.mk (a ++ b) := rfl

theorem padStart2_mk (l : List Char) : padStart2 (String.mk l) = String.mk (listPad2 l) := by
  unfold padStart2 listPad2
  have hlen : (String.mk l).length = l.length := rfl
  rw [hlen]
  split
  · exact string_mk_append _ _
  · rfl

theorem intToString_natCast (k : ℕ) : intToString (k : ℤ) = String.mk (toDigits k) := by
  unfold intToString natToString
  rw [if_neg (by omega)]
  simp

theorem floor_natCast_div_sixty (n : ℕ) : ⌊(n : ℚ) / 60⌋ = ((n / 60 : ℕ) : ℤ) := by
  rw [Int.floor_eq_iff]
  constructor
  · rw [le_div_iff (by norm_num : (0:ℚ) < 60)]
    exact_mod_cast (by omega : n / 60 * 60 ≤ n)
  · rw [div_lt_iff (by norm_num : (0:ℚ) < 60)]
    push_cast
    exact_mod_cast (by omega : n < (n / 60 + 1) * 60)

theorem jsMod_natCast (n : ℕ) : jsMod (n : ℚ) 60 = ((n % 60 : ℕ) : ℚ) := by
  unfold jsMod jsTrunc
  rw [if_pos (by positivity), floor_natCast_div_sixty, Int.cast_natCast]
  have h1 : 60 * (n / 60) + n % 60 = n := Nat.div_add_mod n 60
  have h2 : ((60 * (n / 60) + n % 60 : ℕ) : ℚ) = (n : ℚ) := by exact_mod_cast congrArg Nat.cast h1
  push_cast at h2
  linarith

theorem formatTime_natCast (n : ℕ) :
    formatTime (n : ℚ) =
      String.mk (listPad2 (toDigits (n / 60)) ++ ':' :: listPad2 (toDigits (n % 60))) := by
  unfold formatTime
  rw [floor_natCast_div_sixty, jsMod_natCast]
  rw [show ⌊((n % 60 : ℕ) : ℚ)⌋ = ((n % 60 : ℕ) : ℤ) from Int.floor_natCast _]
  rw [intToString_natCast, intToString_natCast, padStart2_mk, padStart2_mk]
  rw [show (":" : String) = String.mk [':'] from rfl, string_mk_append, string_mk_append]
  congr 1
  simp

/-- Round trip: parsing a formatted whole-second value recovers it. -/
theorem parse_formatTime (n : ℕ) : parseTimeToSeconds? (formatTime (n : ℚ)) = some n := by
  rw [formatTime_natCast]
  unfold parseTimeToSeconds?
  have hsplit :
      splitOnChar ':'
        (String.mk (listPad2 (toDigits (n / 60)) ++ ':' :: listPad2 (toDigits (n % 60)))).data =
        [listPad2 (toDigits (n / 60)), listPad2 (toDigits (n % 60))] := by
    have h1 := @splitOnChar_append ':' (listPad2 (toDigits (n / 60)))
      (listPad2 (toDigits (n % 60))) (listPad2_toDigits_ne_colon (n / 60))
    have h2 := @splitOnChar_no_sep ':' (listPad2 (toDigits (n % 60)))
      (listPad2_toDigits_ne_colon (n % 60))
    calc splitOnChar ':' (listPad2 (toDigits (n / 60)) ++ ':' :: listPad2 (toDigits (n % 60)))
        = listPad2 (toDigits (n / 60)) :: splitOnChar ':' (listPad2 (toDigits (n % 60))) := h1
      _ = [listPad2 (toDigits (n / 60)), listPad2 (toDigits (n % 60))] := by rw [h2]
  rw [hsplit]
  simp only [jsNumDigits_listPad2_toDigits]
  congr 1
  omega

theorem parseTimeToSeconds_formatTime (n : ℕ) : parseTimeToSeconds (formatTime (n : ℚ)) = n := by
  unfold parseTimeToSeconds
  rw [parse_formatTime]
  rfl

theorem timestampWF_formatTime (n : ℕ) : timestampWF (formatTime (n : ℚ)) := by
  unfold timestampWF
  rw [parse_formatTime]
  rfl

theorem parse_eq_of_WF {s : String} (h : timestampWF s) :
    parseTimeToSeconds? s = some (parseTimeToSeconds s) := by
  unfold timestampWF at h
  unfold parseTimeToSeconds
  rcases Option.isSome_iff_exists.mp h with ⟨v, hv⟩
  rw [hv]
  rfl

/-- The chunk-planning loop of `POST` (`src/unnamed/part_000`, lines 188-190):
starting at `time = initialStartTime`, while `time < duration` emit a window
`(max(0, time - CHUNK_OVERLAP), min(CHUNK_DURATION + CHUNK_OVERLAP, duration - start))`
and advance `time += CHUNK_DURATION`. -/
def planLoop (duration : ℚ) (time : ℚ) : List (ℚ × ℚ) :=
  if h : time < duration then
    (max 0 (time - CHUNK_OVERLAP),
      min (CHUNK_DURATION + CHUNK_OVERLAP) (duration - max 0 (time - CHUNK_OVERLAP))) ::
      planLoop duration (time + CHUNK_DURATION)
  else []
termination_by (⌈duration - time⌉).toNat
decreasing_by
  have hceil : 1 ≤ ⌈duration - time⌉ := by
    have := Int.ceil_pos.mpr (show (0:ℚ) < duration - time by linarith)
    omega
  have heq : ⌈duration - (time + CHUNK_DURATION)⌉ = ⌈duration - time⌉ - 120 := by
    have harg : duration - (time + CHUNK_DURATION) = (duration - time) - ((120 : ℤ) : ℚ) := by
      unfold CHUNK_DURATION
      push_cast
      ring
    rw [harg, Int.ceil_sub_int]
  simp only [heq]
  omega

/-- The planner: the ordered sequence of windows the `POST` handler iterates,
starting from the parsed `startTime` form field (`initialStartTime`). -/
def planWindows (duration : ℚ) (initialStartTime : ℤ) : List (ℚ × ℚ) :=
  planLoop duration (initialStartTime : ℚ)

theorem planLoop_of_lt {duration time : ℚ} (h : time < duration) :
    planLoop duration time =
      (max 0 (time - CHUNK_OVERLAP),
        min (CHUNK_DURATION + CHUNK_OVERLAP) (duration - max 0 (time - CHUNK_OVERLAP))) ::
        planLoop duration (time + CHUNK_DURATION) := by
  rw [planLoop]
  simp [h]

theorem planLoop_of_ge {duration time : ℚ} (h : ¬ time < duration) :
    planLoop duration time = [] := by
  rw [planLoop]
  simp [h]

theorem planLoop_ne_nil {duration time : ℚ} (h : time < duration) :
    planLoop duration time ≠ [] := by
  rw [planLoop_of_lt h]
  simp

theorem planLoop_head {duration time : ℚ} (h : time < duration) :
    (planLoop duration time).head? =
      some (max 0 (time - CHUNK_OVERLAP),
        min (CHUNK_DURATION + CHUNK_OVERLAP) (duration - max 0 (time - CHUNK_OVERLAP))) := by
  rw [planLoop_of_lt h]
  rfl

/-- The last window of any planner suffix ends exactly at `duration`. -/
theorem planLoop_last (duration : ℚ) :
    ∀ time : ℚ, time < duration →
      ∃ w : ℚ × ℚ, (planLoop duration time).getLast? = some w ∧ w.1 + w.2 = duration := by
  intro time
  induction time using planLoop.induct duration with
  | case1 time h ih =>
    intro _
    by_cases hnext : time + CHUNK_DURATION < duration
    · obtain ⟨w, hw, hsum⟩ := ih hnext
      refine ⟨w, ?_, hsum⟩
      rw [planLoop_of_lt h]
      rcases hrne : planLoop duration (time + CHUNK_DURATION) with _ | ⟨r, rs⟩
      · rw [hrne] at hw
        exact Option.noConfusion hw
      · rw [hrne] at hw
        rw [List.getLast?_cons_cons]
        exact hw
    · have hnil : planLoop duration (time + CHUNK_DURATION) = [] := planLoop_of_ge hnext
      rw [planLoop_of_lt h, hnil]
      refine ⟨_, rfl, ?_⟩
      show max 0 (time - CHUNK_OVERLAP) +
        min (CHUNK_DURATION + CHUNK_OVERLAP) (duration - max 0 (time - CHUNK_OVERLAP)) = duration
      have hmin : duration - max 0 (time - CHUNK_OVERLAP) ≤ CHUNK_DURATION + CHUNK_OVERLAP := by
        have hs : time - CHUNK_OVERLAP ≤ max 0 (time - CHUNK_OVERLAP) := le_max_right _ _
        unfold CHUNK_DURATION CHUNK_OVERLAP at *
        push_neg at hnext
        linarith
      rw [min_eq_right hmin]
      ring
  | case2 time h =>
    intro hlt
    exact absurd hlt h

/-- Every point from the clamped start of the current loop position up to
`duration` lies in some window of the planner suffix. -/
theorem planLoop_cover (duration : ℚ) :
    ∀ time : ℚ, time < duration →
      ∀ x : ℚ, max 0 (time - CHUNK_OVERLAP) ≤ x → x < duration →
        ∃ w ∈ planLoop duration time, w.1 ≤ x ∧ x < w.1 + w.2 := by
  intro time
  induction time using planLoop.induct duration with
  | case1 time h ih =>
    intro _ x hx hxd
    by_cases hwin : x < max 0 (time - CHUNK_OVERLAP) +
        min (CHUNK_DURATION + CHUNK_OVERLAP) (duration - max 0 (time - CHUNK_OVERLAP))
    · refine ⟨(max 0 (time - CHUNK_OVERLAP),
        min (CHUNK_DURATION + CHUNK_OVERLAP) (duration - max 0 (time - CHUNK_OVERLAP))),
        ?_, hx, hwin⟩
      rw [planLoop_of_lt h]
      exact List.mem_cons_self _ _
    · push_neg at hwin
      have hs_lb : time - CHUNK_OVERLAP ≤ max 0 (time - CHUNK_OVERLAP) := le_max_right _ _
      have hs_nonneg : (0:ℚ) ≤ max 0 (time - CHUNK_OVERLAP) := le_max_left _ _
      have hfull : max 0 (time - CHUNK_OVERLAP) + (CHUNK_DURATION + CHUNK_OVERLAP) ≤ x := by
        rcases min_cases (CHUNK_DURATION + CHUNK_OVERLAP)
            (duration - max 0 (time - CHUNK_OVERLAP)) with ⟨hm, _⟩ | ⟨hm, _⟩
        · rw [hm] at hwin
          exact hwin
        · rw [hm] at hwin
          linarith
      have hnext : time + CHUNK_DURATION < duration := by
        unfold CHUNK_DURATION CHUNK_OVERLAP at *
        linarith
      have hx2 : max 0 (time + CHUNK_DURATION - CHUNK_OVERLAP) ≤ x := by
        rw [max_le_iff]
        refine ⟨by linarith, ?_⟩
        unfold CHUNK_DURATION CHUNK_OVERLAP at *
        linarith
      obtain ⟨w, hw, hw1, hw2⟩ := ih hnext x hx2 hxd
      refine ⟨w, ?_, hw1, hw2⟩
      rw [planLoop_of_lt h]
      exact List.mem_cons_of_mem _ hw
  | case2 time h =>
    intro hlt
    exact absurd hlt h

/-- From the second loop iteration on (loop counter at least one stride),
consecutive window starts differ by exactly `CHUNK_DURATION`. -/
theorem planLoop_chain (duration : ℚ) :
    ∀ time : ℚ, CHUNK_DURATION ≤ time →
      List.Chain' (fun a b : ℚ × ℚ => b.1 = a.1 + CHUNK_DURATION) (planLoop duration time) := by
  intro time
  induction time using planLoop.induct duration with
  | case1 time h ih =>
    intro ht
    rw [planLoop_of_lt h, List.chain'_cons']
    have hch := ih (by unfold CHUNK_DURATION at *; linarith)
    refine ⟨?_, hch⟩
    intro y hy
    by_cases hnext : time + CHUNK_DURATION < duration
    · rw [planLoop_head hnext] at hy
      have hy' : y = (max 0 (time + CHUNK_DURATION - CHUNK_OVERLAP),
          min (CHUNK_DURATION + CHUNK_OVERLAP)
            (duration - max 0 (time + CHUNK_DURATION - CHUNK_OVERLAP))) := by
        cases hy
        rfl
      subst hy'
      show max 0 (time + CHUNK_DURATION - CHUNK_OVERLAP) = max 0 (time - CHUNK_OVERLAP) + CHUNK_DURATION
      have h1 : max 0 (time - CHUNK_OVERLAP) = time - CHUNK_OVERLAP :=
        max_eq_right (by unfold CHUNK_DURATION CHUNK_OVERLAP at *; linarith)
      have h2 : max 0 (time + CHUNK_DURATION - CHUNK_OVERLAP) =
          time + CHUNK_DURATION - CHUNK_OVERLAP :=
        max_eq_right (by unfold CHUNK_DURATION CHUNK_OVERLAP at *; linarith)
      rw [h1, h2]
      ring
    · rw [planLoop_of_ge hnext] at hy
      exact absurd hy (by simp)
  | case2 time h =>
    intro _
    rw [planLoop_of_ge h]
    exact List.chain'_nil

theorem chain'_get_pair {α : Type} {R : α → α → Prop} :
    ∀ {l : List α}, List.Chain' R l →
      ∀ (i : ℕ) (a b : α), l.get? i = some a → l.get? (i + 1) = some b → R a b := by
  intro l
  induction l with
  | nil =>
    intro _ i a b ha _
    simp at ha
  | cons x l' ih =>
    intro hch i a b ha hb
    rw [List.chain'_cons'] at hch
    match i with
    | 0 =>
      rw [List.get?_cons_zero] at ha
      have hax : x = a := Option.some.inj ha
      subst hax
      rw [List.get?_cons_succ] at hb
      rcases l' with _ | ⟨z, l''⟩
      · exact Option.noConfusion hb
      · rw [List.get?_cons_zero] at hb
        have hbz : z = b := Option.some.inj hb
        subst hbz
        exact hch.1 z rfl
    | j + 1 =>
      rw [List.get?_cons_succ] at ha hb
      exact ih hch.2 j a b ha hb

theorem planWindows_zero (totalDuration : ℚ) :
    planWindows totalDuration 0 = planLoop totalDuration 0 := by
  unfold planWindows
  norm_num

theorem planLoop_zero_cons (totalDuration : ℚ) (hd : 0 < totalDuration) :
    planLoop totalDuration 0 =
      (0, min (CHUNK_DURATION + CHUNK_OVERLAP) totalDuration) ::
        planLoop totalDuration CHUNK_DURATION := by
  rw [planLoop_of_lt hd]
  have hmax : max 0 ((0:ℚ) - CHUNK_OVERLAP) = 0 := by
    unfold CHUNK_OVERLAP
    norm_num
  rw [hmax, zero_add, sub_zero]

/-- C1: with windowLength = `CHUNK_DURATION` = 120, overlap = `CHUNK_OVERLAP` = 60
and resumeFrom = 0, for every totalDuration > 0 the planner loop produces a
nonempty window list whose first start is 0, whose consecutive starts increase
strictly — by exactly `CHUNK_DURATION`, except for the first stride which the
clamp at 0 shortens to `CHUNK_DURATION - CHUNK_OVERLAP` — whose last window
ends exactly at totalDuration, and which covers every point of
`[0, totalDuration)`. -/
theorem planner_windows_correct (totalDuration : ℚ) (hd : 0 < totalDuration) :
    planWindows totalDuration 0 ≠ [] ∧
    (∀ w ∈ (planWindows totalDuration 0).head?, w.1 = 0) ∧
    (∀ (i : ℕ) (a b : ℚ × ℚ),
      (planWindows totalDuration 0).get? i = some a →
      (planWindows totalDuration 0).get? (i + 1) = some b →
      a.1 < b.1 ∧
        b.1 = a.1 + (if i = 0 then CHUNK_DURATION - CHUNK_OVERLAP else CHUNK_DURATION)) ∧
    (∃ w : ℚ × ℚ, (planWindows totalDuration 0).getLast? = some w ∧
      w.1 + w.2 = totalDuration) ∧
    (∀ x : ℚ, 0 ≤ x → x < totalDuration →
      ∃ w ∈ planWindows totalDuration 0, w.1 ≤ x ∧ x < w.1 + w.2) := by
  have hplan := planWindows_zero totalDuration
  have hcons := planLoop_zero_cons totalDuration hd
  refine ⟨?_, ?_, ?_, ?_, ?_⟩
  · rw [hplan, hcons]
    simp
  · rw [hplan, hcons]
    intro w hw
    cases hw
    rfl
  · intro i a b ha hb
    rw [hplan, hcons] at ha hb
    match i with
    | 0 =>
      rw [List.get?_cons_zero] at ha
      have ha' : (0, min (CHUNK_DURATION + CHUNK_OVERLAP) totalDuration) = a :=
        Option.some.inj ha
      rw [List.get?_cons_succ] at hb
      have h120 : CHUNK_DURATION < totalDuration := by
        by_contra hcon
        rw [planLoop_of_ge hcon] at hb
        exact Option.noConfusion hb
      have hh := planLoop_head h120
      rcases hrest : planLoop totalDuration CHUNK_DURATION with _ | ⟨z, zs⟩
      · rw [hrest] at hb
        exact Option.noConfusion hb
      · rw [hrest] at hb hh
        rw [List.get?_cons_zero] at hb
        have hb' : z = b := Option.some.inj hb
        have hz : z = (max 0 (CHUNK_DURATION - CHUNK_OVERLAP),
            min (CHUNK_DURATION + CHUNK_OVERLAP)
              (totalDuration - max 0 (CHUNK_DURATION - CHUNK_OVERLAP))) := by
          have := hh
          simp only [List.head?_cons] at this
          exact Option.some.inj this
        have hmax2 : max 0 (CHUNK_DURATION - CHUNK_OVERLAP) = CHUNK_DURATION - CHUNK_OVERLAP := by
          unfold CHUNK_DURATION CHUNK_OVERLAP
          norm_num
        subst hb'
        rw [hz, hmax2]
        rw [← ha']
        unfold CHUNK_DURATION CHUNK_OVERLAP
        norm_num
    | j + 1 =>
      rw [List.get?_cons_succ] at ha hb
      have hch := planLoop_chain totalDuration CHUNK_DURATION (le_refl _)
      have hR := chain'_get_pair hch j a b ha hb
      refine ⟨?_, ?_⟩
      · rw [hR]
        unfold CHUNK_DURATION
        linarith
      · rw [if_neg (by omega : ¬ j + 1 = 0)]
        exact hR
  · rw [hplan]
    exact planLoop_last totalDuration 0 hd
  · rw [hplan]
    intro x hx hxd
    have hmax : max 0 ((0:ℚ) - CHUNK_OVERLAP) = 0 := by
      unfold CHUNK_OVERLAP
      norm_num
    exact planLoop_cover totalDuration 0 hd x (by rw [hmax]; exact hx) hxd

/-- Witness for C1 at the concrete scenario totalDuration = 300 of the design
document. -/
theorem planner_windows_correct_witness :
    ∃ w : ℚ × ℚ, (planWindows 300 0).getLast? = some w ∧ w.1 + w.2 = 300 :=
  (planner_windows_correct 300 (by norm_num)).2.2.2.1

/-- One step of the speaker-normalization pass of `mergeTranscripts`
(`src/src/lib/utils/audio.ts`, lines 22-29): an unseen raw label is mapped to
`Speaker <next index>`, the next index being one past the number of labels
mapped so far (`currentSpeakerIndex` starts at 1 and is bumped on insert). -/
def addSpeaker (m : List (String × String)) (sp : String) : List (String × String) :=
  if (m.lookup sp).isSome then m
  else m ++ [(sp, "Speaker " ++ natToString (m.length + 1))]

/-- The speaker map built by the first pass of `mergeTranscripts` over every
entry of every chunk, in order. -/
def buildSpeakerMap (chunks : List (List TranscriptEntry)) : List (String × String) :=
  ((chunks.join).map TranscriptEntry.speaker).foldl addSpeaker []

/-- `speakerMap.get(entry.speaker) || entry.speaker`
(`src/src/lib/utils/audio.ts`, line 51); the canonical labels Speaker n are
nonempty, hence truthy, so `getD` models the `||` fallback. -/
def canonSpeaker (smap : List (String × String)) (sp : String) : String :=
  (smap.lookup sp).getD sp

/-- The duplicate test of `mergeTranscripts` (lines 40-44): some already-merged
entry lies within 5 seconds, carries the canonical speaker of the incoming
entry (`existing.speaker === speakerMap.get(entry.speaker)`), and has the same
text. -/
def isDuplicateEntry (smap : List (String × String)) (merged : List TranscriptEntry)
    (adjustedTime : ℕ) (entry : TranscriptEntry) : Bool :=
  merged.any fun existing =>
    decide (((parseTimeToSeconds existing.timestamp : ℤ) - (adjustedTime : ℤ)).natAbs < 5)
    && (match smap.lookup entry.speaker with
        | some c => existing.speaker == c
        | none => false)
    && existing.text == entry.text

/-- The per-entry body of the merge loop of `mergeTranscripts` (lines 35-53):
compute the adjusted absolute time, drop duplicates, otherwise push the entry
with reformatted timestamp and canonical speaker. -/
def mergeStep (smap : List (String × String)) (start : ℕ)
    (merged : List TranscriptEntry) (entry : TranscriptEntry) : List TranscriptEntry :=
  let adjustedTime := parseTimeToSeconds entry.timestamp + start
  if isDuplicateEntry smap merged adjustedTime entry then merged
  else merged ++
    [⟨formatTime (adjustedTime : ℚ), canonSpeaker smap entry.speaker, entry.text⟩]

/-- The nested chunk/entry loops of `mergeTranscripts` (lines 31-54), with the
chunk list and the parallel start-time list zipped; the source walks the two
arrays by a shared index. -/
def mergeLoop (smap : List (String × String)) (pairs : List (List TranscriptEntry × ℕ))
    (acc : List TranscriptEntry) : List TranscriptEntry :=
  pairs.foldl (fun merged p => p.1.foldl (mergeStep smap p.2) merged) acc

/-- The merged-but-unsorted accumulator of `mergeTranscripts`. -/
def mergeCore (chunks : List (List TranscriptEntry)) (chunkStartTimes : List ℕ) :
    List TranscriptEntry :=
  mergeLoop (buildSpeakerMap chunks) (chunks.zip chunkStartTimes) []

/-- The final sort of `mergeTranscripts` (line 57):
`merged.sort((a, b) => parse(a.timestamp) - parse(b.timestamp))`.
`Array.prototype.sort` is stable (ES2019), which insertion sort by the
non-strict key order realizes. -/
def sortEntries (l : List TranscriptEntry) : List TranscriptEntry :=
  List.insertionSort
    (fun a b => parseTimeToSeconds a.timestamp ≤ parseTimeToSeconds b.timestamp) l

/-- `mergeTranscripts`, from `src/src/lib/utils/audio.ts` lines 17-58. -/
def mergeTranscripts (chunks : List (List TranscriptEntry)) (chunkStartTimes : List ℕ) :
    List TranscriptEntry :=
  sortEntries (mergeCore chunks chunkStartTimes)

theorem filter_orderedInsert_key (key : TranscriptEntry → ℕ) (x : TranscriptEntry) (k : ℕ) :
    ∀ l : List TranscriptEntry,
      (List.orderedInsert (fun a b => key a ≤ key b) x l).filter (fun e => key e == k) =
        ((x :: l).filter (fun e => key e == k)) := by
  intro l
  induction l with
  | nil => rfl
  | cons y ys ih =>
    by_cases hxy : key x ≤ key y
    · simp only [List.orderedInsert]
      rw [if_pos hxy]
    · simp only [List.orderedInsert]
      rw [if_neg hxy]
      push_neg at hxy
      simp only [List.filter_cons, ih]
      by_cases hyk : key y = k
      · have hxk : key x ≠ k := by omega
        simp [hyk, hxk]
      · by_cases hxk : key x = k <;> simp [hyk, hxk]

theorem filter_sortEntries (k : ℕ) :
    ∀ l : List TranscriptEntry,
      (sortEntries l).filter (fun e => parseTimeToSeconds e.timestamp == k) =
        l.filter (fun e => parseTimeToSeconds e.timestamp == k) := by
  intro l
  induction l with
  | nil => rfl
  | cons x xs ih =>
    unfold sortEntries at *
    rw [List.insertionSort]
    rw [filter_orderedInsert_key (fun e => parseTimeToSeconds e.timestamp) x k]
    rw [List.filter_cons, List.filter_cons]
    split
    · rw [ih]
    · exact ih

/-- C8: for every input, the merged output is sorted by parsed absolute
timestamp ascending, and the sort is stable: for each timestamp value the
entries carrying it appear in the same relative (insertion) order in the
output as in the unsorted merge accumulator. -/
theorem mergeTranscripts_sorted_stable (chunks : List (List TranscriptEntry))
    (chunkStartTimes : List ℕ) :
    List.Sorted (fun a b => parseTimeToSeconds a.timestamp ≤ parseTimeToSeconds b.timestamp)
      (mergeTranscripts chunks chunkStartTimes) ∧
    ∀ k : ℕ,
      (mergeTranscripts chunks chunkStartTimes).filter
          (fun e => parseTimeToSeconds e.timestamp == k) =
        (mergeCore chunks chunkStartTimes).filter
          (fun e => parseTimeToSeconds e.timestamp == k) := by
  constructor
  · haveI : IsTotal TranscriptEntry
        (fun a b => parseTimeToSeconds a.timestamp ≤ parseTimeToSeconds b.timestamp) :=
      ⟨fun a b => Nat.le_total _ _⟩
    haveI : IsTrans TranscriptEntry
        (fun a b => parseTimeToSeconds a.timestamp ≤ parseTimeToSeconds b.timestamp) :=
      ⟨fun _ _ _ hab hbc => Nat.le_trans hab hbc⟩
    exact List.sorted_insertionSort _ _
  · intro k
    exact filter_sortEntries k (mergeCore chunks chunkStartTimes)

/-- Distinct labels in first-seen order: the order in which the
speaker-normalization pass first encounters each raw label (specification-side
description used to state C9 against `buildSpeakerMap`). -/
def firstSeenAux (seen : List String) : List String → List String
  | [] => []
  | x :: xs =>
    if x ∈ seen then firstSeenAux seen xs else x :: firstSeenAux (seen ++ [x]) xs

/-- Distinct labels of `labels` in first-seen order. -/
def firstSeen (labels : List String) : List String := firstSeenAux [] labels

theorem firstSeenAux_cons (seen : List String) (x : String) (xs : List String) :
    firstSeenAux seen (x :: xs) =
      if x ∈ seen then firstSeenAux seen xs else x :: firstSeenAux (seen ++ [x]) xs := rfl

theorem lookup_isSome_iff (m : List (String × String)) (x : String) :
    (m.lookup x).isSome = true ↔ x ∈ m.map Prod.fst := by
  induction m with
  | nil => simp
  | cons p m ih =>
    rcases p with ⟨k, v⟩
    by_cases hx : x = k
    · subst hx
      simp [List.lookup]
    · have hbeq : (x == k) = false := beq_eq_false_iff_ne.mpr hx
      simp [List.lookup, hbeq, ih, hx]

theorem foldl_addSpeaker_eq (labels : List String) :
    ∀ m : List (String × String),
      labels.foldl addSpeaker m =
        m ++ (List.enumFrom (m.length + 1) (firstSeenAux (m.map Prod.fst) labels)).map
          (fun p => (p.2, "Speaker " ++ natToString p.1)) := by
  induction labels with
  | nil =>
    intro m
    simp [firstSeenAux]
  | cons x xs ih =>
    intro m
    rw [List.foldl_cons]
    by_cases hx : (m.lookup x).isSome = true
    · have hstep : addSpeaker m x = m := by
        unfold addSpeaker
        rw [if_pos hx]
      rw [hstep, ih m]
      have hmem : x ∈ m.map Prod.fst := (lookup_isSome_iff m x).mp hx
      rw [firstSeenAux_cons, if_pos hmem]
    · have hstep : addSpeaker m x = m ++ [(x, "Speaker " ++ natToString (m.length + 1))] := by
        unfold addSpeaker
        rw [if_neg hx]
      rw [hstep, ih (m ++ [(x, "Speaker " ++ natToString (m.length + 1))])]
      have hnmem : x ∉ m.map Prod.fst := fun hmem => hx ((lookup_isSome_iff m x).mpr hmem)
      rw [firstSeenAux_cons, if_neg hnmem]
      have hkeys : (m ++ [(x, "Speaker " ++ natToString (m.length + 1))]).map Prod.fst =
          m.map Prod.fst ++ [x] := by simp
      have hlen : (m ++ [(x, "Speaker " ++ natToString (m.length + 1))]).length = m.length + 1 := by
        simp
      rw [hkeys, hlen]
      rw [show List.enumFrom (m.length + 1) (x :: firstSeenAux (m.map Prod.fst ++ [x]) xs) =
          (m.length + 1, x) ::
            List.enumFrom (m.length + 1 + 1) (firstSeenAux (m.map Prod.fst ++ [x]) xs) from rfl]
      simp [List.append_assoc]

theorem firstSeenAux_not_mem (seen : List String) (labels : List String) :
    ∀ x ∈ firstSeenAux seen labels, x ∉ seen := by
  induction labels generalizing seen with
  | nil =>
    intro x hx
    simp [firstSeenAux] at hx
  | cons y ys ih =>
    intro x hx
    rw [firstSeenAux_cons] at hx
    by_cases hmem : y ∈ seen
    · rw [if_pos hmem] at hx
      exact ih seen x hx
    · rw [if_neg hmem] at hx
      rcases List.mem_cons.mp hx with hxy | hx
      · subst hxy
        exact hmem
      · intro hseen
        exact ih (seen ++ [y]) x hx (List.mem_append_left _ hseen)

theorem firstSeenAux_nodup (seen : List String) (labels : List String) :
    (firstSeenAux seen labels).Nodup := by
  induction labels generalizing seen with
  | nil => simp [firstSeenAux]
  | cons y ys ih =>
    rw [firstSeenAux_cons]
    by_cases hmem : y ∈ seen
    · rw [if_pos hmem]
      exact ih seen
    · rw [if_neg hmem, List.nodup_cons]
      refine ⟨?_, ih (seen ++ [y])⟩
      intro hmem2
      exact firstSeenAux_not_mem (seen ++ [y]) ys y hmem2 (List.mem_append_right _ (by simp))

theorem lookup_speaker_enumFrom :
    ∀ (l : List String) (base : ℕ), l.Nodup →
      ∀ (i : ℕ) (x : String), l.get? i = some x →
        ((List.enumFrom base l).map (fun p => (p.2, "Speaker " ++ natToString p.1))).lookup x =
          some ("Speaker " ++ natToString (base + i)) := by
  intro l
  induction l with
  | nil =>
    intro _ _ i x hx
    exact Option.noConfusion hx
  | cons y ys ih =>
    intro base hnd i x hx
    match i with
    | 0 =>
      rw [List.get?_cons_zero] at hx
      have hyx : y = x := Option.some.inj hx
      subst hyx
      simp [List.enumFrom, List.lookup]
    | j + 1 =>
      rw [List.get?_cons_succ] at hx
      have hmem : x ∈ ys := List.get?_mem hx
      have hyx : x ≠ y := fun h => (List.nodup_cons.mp hnd).1 (h ▸ hmem)
      have hbeq : (x == y) = false := beq_eq_false_iff_ne.mpr hyx
      have hrec := ih (base + 1) (List.nodup_cons.mp hnd).2 j x hx
      rw [show base + (j + 1) = base + 1 + j by omega]
      calc ((List.enumFrom base (y :: ys)).map
            (fun p => (p.2, "Speaker " ++ natToString p.1))).lookup x
          = ((List.enumFrom (base + 1) ys).map
              (fun p => (p.2, "Speaker " ++ natToString p.1))).lookup x := by
            simp [List.enumFrom, List.lookup, hbeq]
        _ = some ("Speaker " ++ natToString (base + 1 + j)) := hrec

/-- C9: the speaker map of `mergeTranscripts` sends the i-th distinct raw
label (0-based, in first-seen order across all windows taken in window order)
to the canonical label `Speaker (i+1)`. -/
theorem speaker_canonicalization (chunks : List (List TranscriptEntry)) (i : ℕ) (x : String)
    (hx : (firstSeen ((chunks.join).map TranscriptEntry.speaker)).get? i = some x) :
    (buildSpeakerMap chunks).lookup x = some ("Speaker " ++ natToString (i + 1)) := by
  unfold buildSpeakerMap
  rw [foldl_addSpeaker_eq _ []]
  rw [show (([] : List (String × String)).map Prod.fst) = [] from rfl]
  rw [show (([] : List (String × String)).length + 1) = 1 from rfl]
  rw [List.nil_append]
  have hnd := firstSeenAux_nodup [] ((chunks.join).map TranscriptEntry.speaker)
  have hlk := lookup_speaker_enumFrom (firstSeen ((chunks.join).map TranscriptEntry.speaker)) 1
    hnd i x hx
  unfold firstSeen at hlk
  rw [hlk]
  rw [show 1 + i = i + 1 by omega]

/-- Witness for C9 at the raw-label encounter order Alice, Bob, Alice of the
design document: Bob is the second distinct label and maps to Speaker 2. -/
theorem speaker_canonicalization_witness :
    (buildSpeakerMap
        [[⟨"00:00", "Alice", "a"⟩], [⟨"00:05", "Bob", "b"⟩], [⟨"00:09", "Alice", "c"⟩]]).lookup
      "Bob" = some ("Speaker " ++ natToString 2) :=
  speaker_canonicalization
    [[⟨"00:00", "Alice", "a"⟩], [⟨"00:05", "Bob", "b"⟩], [⟨"00:09", "Alice", "c"⟩]] 1 "Bob"
    (by decide)

/-- The per-window entry stream flattened to (start, entry) pairs, in the
order the nested loops of `mergeTranscripts` visit them. -/
def flatPairs (pairs : List (List TranscriptEntry × ℕ)) : List (ℕ × TranscriptEntry) :=
  pairs.bind (fun p => p.1.map (fun e => (p.2, e)))

/-- The merge loop expressed over the flattened (start, entry) stream. -/
def mergeFlat (smap : List (String × String)) (l : List (ℕ × TranscriptEntry))
    (acc : List TranscriptEntry) : List TranscriptEntry :=
  l.foldl (fun merged q => mergeStep smap q.1 merged q.2) acc

theorem mergeFlat_nil (smap : List (String × String)) (acc : List TranscriptEntry) :
    mergeFlat smap [] acc = acc := rfl

theorem mergeFlat_cons (smap : List (String × String)) (p : ℕ × TranscriptEntry)
    (ps : List (ℕ × TranscriptEntry)) (acc : List TranscriptEntry) :
    mergeFlat smap (p :: ps) acc = mergeFlat smap ps (mergeStep smap p.1 acc p.2) := rfl

theorem mergeFlat_append (smap : List (String × String)) (a b : List (ℕ × TranscriptEntry))
    (acc : List TranscriptEntry) :
    mergeFlat smap (a ++ b) acc = mergeFlat smap b (mergeFlat smap a acc) := by
  unfold mergeFlat
  rw [List.foldl_append]

theorem flatPairs_cons (p : List TranscriptEntry × ℕ) (ps : List (List TranscriptEntry × ℕ)) :
    flatPairs (p :: ps) = p.1.map (fun e => (p.2, e)) ++ flatPairs ps := rfl

theorem flatPairs_append (a b : List (List TranscriptEntry × ℕ)) :
    flatPairs (a ++ b) = flatPairs a ++ flatPairs b := by
  induction a with
  | nil => rfl
  | cons p ps ih =>
    rw [List.cons_append, flatPairs_cons, flatPairs_cons, ih, List.append_assoc]

theorem mergeLoop_eq_flat (smap : List (String × String)) :
    ∀ (pairs : List (List TranscriptEntry × ℕ)) (acc : List TranscriptEntry),
      mergeLoop smap pairs acc = mergeFlat smap (flatPairs pairs) acc := by
  intro pairs
  induction pairs with
  | nil =>
    intro acc
    rfl
  | cons p ps ih =>
    intro acc
    unfold mergeLoop at *
    rw [List.foldl_cons, ih]
    rw [flatPairs_cons, mergeFlat_append]
    congr 1
    unfold mergeFlat
    rw [List.foldl_map]

theorem isDuplicateEntry_mono {smap : List (String × String)} {merged : List TranscriptEntry}
    {t : ℕ} {e : TranscriptEntry} (h : isDuplicateEntry smap merged t e = true)
    (ext : List TranscriptEntry) : isDuplicateEntry smap (merged ++ ext) t e = true := by
  unfold isDuplicateEntry at *
  rw [List.any_append, h]
  rfl

theorem mergeStep_of_dup {smap : List (String × String)} {st : ℕ} {acc : List TranscriptEntry}
    {e : TranscriptEntry}
    (h : isDuplicateEntry smap acc (parseTimeToSeconds e.timestamp + st) e = true) :
    mergeStep smap st acc e = acc := by
  simp only [mergeStep]
  rw [if_pos h]

theorem mergeStep_of_new {smap : List (String × String)} {st : ℕ} {acc : List TranscriptEntry}
    {e : TranscriptEntry}
    (h : ¬ isDuplicateEntry smap acc (parseTimeToSeconds e.timestamp + st) e = true) :
    mergeStep smap st acc e =
      acc ++ [⟨formatTime ((parseTimeToSeconds e.timestamp + st : ℕ) : ℚ),
        canonSpeaker smap e.speaker, e.text⟩] := by
  simp only [mergeStep]
  rw [if_neg h]

theorem mergeStep_extend (smap : List (String × String)) (st : ℕ) (acc : List TranscriptEntry)
    (e : TranscriptEntry) : ∃ t, mergeStep smap st acc e = acc ++ t := by
  by_cases h : isDuplicateEntry smap acc (parseTimeToSeconds e.timestamp + st) e = true
  · exact ⟨[], by rw [mergeStep_of_dup h, List.append_nil]⟩
  · exact ⟨_, mergeStep_of_new h⟩

theorem mergeFlat_extend (smap : List (String × String)) :
    ∀ (l : List (ℕ × TranscriptEntry)) (acc : List TranscriptEntry),
      ∃ t, mergeFlat smap l acc = acc ++ t := by
  intro l
  induction l with
  | nil =>
    intro acc
    exact ⟨[], (List.append_nil acc).symm⟩
  | cons p ps ih =>
    intro acc
    rw [mergeFlat_cons]
    obtain ⟨t1, ht1⟩ := mergeStep_extend smap p.1 acc p.2
    obtain ⟨t2, ht2⟩ := ih (mergeStep smap p.1 acc p.2)
    exact ⟨t1 ++ t2, by rw [ht2, ht1, List.append_assoc]⟩

/-- The freshly pushed copy of an entry is a duplicate witness for that entry:
its reformatted timestamp parses back to the adjusted time, its speaker is the
canonical label, its text is unchanged. -/
theorem isDuplicateEntry_pushed (smap : List (String × String)) (st : ℕ)
    (acc : List TranscriptEntry) (e : TranscriptEntry)
    (hlk : ((smap.lookup e.speaker).isSome = true)) :
    isDuplicateEntry smap
      (acc ++ [⟨formatTime ((parseTimeToSeconds e.timestamp + st : ℕ) : ℚ),
        canonSpeaker smap e.speaker, e.text⟩])
      (parseTimeToSeconds e.timestamp + st) e = true := by
  unfold isDuplicateEntry
  rw [List.any_append]
  refine Bool.or_eq_true_iff.mpr (Or.inr ?_)
  rw [List.any_cons]
  refine Bool.or_eq_true_iff.mpr (Or.inl ?_)
  rcases Option.isSome_iff_exists.mp hlk with ⟨c, hc⟩
  rw [Bool.and_eq_true, Bool.and_eq_true]
  refine ⟨⟨?_, ?_⟩, ?_⟩
  · simp only [parseTimeToSeconds_formatTime]
    simp
  · rw [hc]
    have : canonSpeaker smap e.speaker = c := by
      unfold canonSpeaker
      rw [hc]
      rfl
    simp only
    rw [this]
    exact beq_self_eq_true c
  · exact beq_self_eq_true e.text

/-- After one pass over a flattened entry stream, every entry of that stream
is recognized as a duplicate by the dedup rule against the pass's output. -/
theorem mergeFlat_absorbs (smap : List (String × String)) :
    ∀ (l : List (ℕ × TranscriptEntry)) (acc : List TranscriptEntry),
      (∀ q ∈ l, timestampWF q.2.timestamp ∧ ((smap.lookup q.2.speaker).isSome = true)) →
      ∀ q ∈ l, isDuplicateEntry smap (mergeFlat smap l acc)
          (parseTimeToSeconds q.2.timestamp + q.1) q.2 = true := by
  intro l
  induction l with
  | nil =>
    intro acc _ q hq
    exact absurd hq (List.not_mem_nil q)
  | cons p ps ih =>
    intro acc hwf q hq
    rw [mergeFlat_cons]
    rcases List.mem_cons.mp hq with hqp | hq'
    · subst hqp
      obtain ⟨t, ht⟩ := mergeFlat_extend smap ps (mergeStep smap q.1 acc q.2)
      rw [ht]
      by_cases hdup : isDuplicateEntry smap acc (parseTimeToSeconds q.2.timestamp + q.1) q.2 = true
      · rw [mergeStep_of_dup hdup]
        exact isDuplicateEntry_mono hdup t
      · rw [mergeStep_of_new hdup]
        have hpush := isDuplicateEntry_pushed smap q.1 acc q.2 (hwf q (by simp)).2
        exact isDuplicateEntry_mono hpush t
    · exact ih (mergeStep smap p.1 acc p.2) (fun r hr => hwf r (by simp [hr])) q hq'

/-- Folding a stream whose every entry is already a duplicate of the
accumulator leaves the accumulator unchanged. -/
theorem mergeFlat_absorbed_id (smap : List (String × String)) :
    ∀ (l : List (ℕ × TranscriptEntry)) (acc : List TranscriptEntry),
      (∀ q ∈ l, isDuplicateEntry smap acc (parseTimeToSeconds q.2.timestamp + q.1) q.2 = true) →
      mergeFlat smap l acc = acc := by
  intro l
  induction l with
  | nil =>
    intro acc _
    rfl
  | cons p ps ih =>
    intro acc h
    rw [mergeFlat_cons, mergeStep_of_dup (h p (by simp))]
    exact ih acc (fun q hq => h q (by simp [hq]))

theorem lookup_append_of_isSome {a : List (String × String)} (b : List (String × String))
    {x : String} (h : (a.lookup x).isSome = true) : (a ++ b).lookup x = a.lookup x := by
  induction a with
  | nil => simp at h
  | cons p a ih =>
    rcases p with ⟨k, v⟩
    by_cases hbeq : x = k
    · subst hbeq
      simp [List.lookup]
    · have hb : (x == k) = false := beq_eq_false_iff_ne.mpr hbeq
      simp only [List.cons_append, List.lookup, hb] at *
      exact ih h

theorem lookup_append_of_none {a : List (String × String)} (b : List (String × String))
    {x : String} (h : a.lookup x = none) : (a ++ b).lookup x = b.lookup x := by
  induction a with
  | nil => rfl
  | cons p a ih =>
    rcases p with ⟨k, v⟩
    by_cases hbeq : x = k
    · subst hbeq
      simp [List.lookup] at h
    · have hb : (x == k) = false := beq_eq_false_iff_ne.mpr hbeq
      simp only [List.cons_append, List.lookup, hb] at *
      exact ih h

theorem addSpeaker_preserves (m : List (String × String)) (z x : String)
    (h : (m.lookup x).isSome = true) : ((addSpeaker m z).lookup x).isSome = true := by
  unfold addSpeaker
  split
  · exact h
  · rw [lookup_append_of_isSome _ h]
    exact h

theorem addSpeaker_self (m : List (String × String)) (z : String) :
    ((addSpeaker m z).lookup z).isSome = true := by
  unfold addSpeaker
  by_cases h : (m.lookup z).isSome = true
  · rw [if_pos h]
    exact h
  · rw [if_neg h]
    have hnone : m.lookup z = none := Option.not_isSome_iff_eq_none.mp (by simpa using h)
    rw [lookup_append_of_none _ hnone]
    simp [List.lookup]

theorem foldl_addSpeaker_preserves (labels : List String) :
    ∀ (m : List (String × String)) (x : String), (m.lookup x).isSome = true →
      ((labels.foldl addSpeaker m).lookup x).isSome = true := by
  induction labels with
  | nil =>
    intro m x h
    exact h
  | cons y ys ih =>
    intro m x h
    rw [List.foldl_cons]
    exact ih (addSpeaker m y) x (addSpeaker_preserves m y x h)

theorem foldl_addSpeaker_covers (labels : List String) :
    ∀ (m : List (String × String)) (x : String), x ∈ labels →
      ((labels.foldl addSpeaker m).lookup x).isSome = true := by
  induction labels with
  | nil =>
    intro m x hx
    exact absurd hx (List.not_mem_nil x)
  | cons y ys ih =>
    intro m x hx
    rw [List.foldl_cons]
    rcases List.mem_cons.mp hx with hxy | hx'
    · subst hxy
      exact foldl_addSpeaker_preserves ys (addSpeaker m x) x (addSpeaker_self m x)
    · exact ih (addSpeaker m y) x hx'

theorem foldl_addSpeaker_absorbed (labels : List String) :
    ∀ m : List (String × String), (∀ x ∈ labels, (m.lookup x).isSome = true) →
      labels.foldl addSpeaker m = m := by
  induction labels with
  | nil =>
    intro m _
    rfl
  | cons y ys ih =>
    intro m h
    rw [List.foldl_cons]
    have hstep : addSpeaker m y = m := by
      unfold addSpeaker
      rw [if_pos (h y (by simp))]
    rw [hstep]
    exact ih m (fun x hx => h x (by simp [hx]))

/-- Re-merging the same chunk list adds no speaker labels: the map of the
doubled input equals the map of the single input. -/
theorem join_append_eq (a b : List (List TranscriptEntry)) :
    (a ++ b).join = a.join ++ b.join := by
  induction a with
  | nil => rfl
  | cons x xs ih => simp [ih]

theorem buildSpeakerMap_doubled (chunks : List (List TranscriptEntry)) :
    buildSpeakerMap (chunks ++ chunks) = buildSpeakerMap chunks := by
  unfold buildSpeakerMap
  rw [join_append_eq, List.map_append, List.foldl_append]
  apply foldl_addSpeaker_absorbed
  intro x hx
  exact foldl_addSpeaker_covers _ [] x hx

theorem buildSpeakerMap_has (chunks : List (List TranscriptEntry)) (e : TranscriptEntry)
    (he : e ∈ chunks.join) : (((buildSpeakerMap chunks).lookup e.speaker).isSome = true) := by
  unfold buildSpeakerMap
  exact foldl_addSpeaker_covers _ [] e.speaker (List.mem_map_of_mem _ he)

theorem flatPairs_mem {pairs : List (List TranscriptEntry × ℕ)} {q : ℕ × TranscriptEntry}
    (hq : q ∈ flatPairs pairs) : ∃ p ∈ pairs, q.2 ∈ p.1 ∧ q.1 = p.2 := by
  unfold flatPairs at hq
  rw [List.mem_bind] at hq
  obtain ⟨p, hp, hq2⟩ := hq
  rw [List.mem_map] at hq2
  obtain ⟨e, he, heq⟩ := hq2
  refine ⟨p, hp, ?_, ?_⟩
  · rw [← heq]
    exact he
  · rw [← heq]

/-- C2: merging the concatenation of an input with itself (same windows and
parallel start offsets repeated) gives the same output as merging the input
once — every repeated entry is absorbed by the dedup rule. -/
theorem mergeTranscripts_idempotent (chunks : List (List TranscriptEntry)) (starts : List ℕ)
    (hlen : chunks.length = starts.length)
    (hwf : ∀ e ∈ chunks.join, timestampWF e.timestamp) :
    mergeTranscripts (chunks ++ chunks) (starts ++ starts) = mergeTranscripts chunks starts := by
  unfold mergeTranscripts
  congr 1
  unfold mergeCore
  rw [buildSpeakerMap_doubled]
  rw [List.zip_append hlen]
  rw [mergeLoop_eq_flat, mergeLoop_eq_flat, flatPairs_append, mergeFlat_append]
  have hL : ∀ q ∈ flatPairs (chunks.zip starts), timestampWF q.2.timestamp ∧
      (((buildSpeakerMap chunks).lookup q.2.speaker).isSome = true) := by
    intro q hq
    obtain ⟨p, hp, hq2, _⟩ := flatPairs_mem hq
    have hmem : q.2 ∈ chunks.join := by
      rw [List.mem_join]
      exact ⟨p.1, (List.of_mem_zip hp).1, hq2⟩
    exact ⟨hwf q.2 hmem, buildSpeakerMap_has chunks q.2 hmem⟩
  apply mergeFlat_absorbed_id
  intro q hq
  exact mergeFlat_absorbs (buildSpeakerMap chunks) (flatPairs (chunks.zip starts)) [] hL q hq

/-- Witness for C2 on the overlap scenario of the design document. -/
theorem mergeTranscripts_idempotent_witness :
    mergeTranscripts
        ([[⟨"01:00", "Speaker 1", "hello"⟩], [⟨"00:03", "Speaker 1", "hello"⟩]] ++
          [[⟨"01:00", "Speaker 1", "hello"⟩], [⟨"00:03", "Speaker 1", "hello"⟩]])
        ([0, 57] ++ [0, 57]) =
      mergeTranscripts [[⟨"01:00", "Speaker 1", "hello"⟩], [⟨"00:03", "Speaker 1", "hello"⟩]]
        [0, 57] :=
  mergeTranscripts_idempotent
    [[⟨"01:00", "Speaker 1", "hello"⟩], [⟨"00:03", "Speaker 1", "hello"⟩]] [0, 57]
    (by decide) (by decide)

/-- The per-entry normalization of `processChunk` (`src/unnamed/part_000`,
lines 99-106): shift the window-relative parsed time by the window start,
clamp at the window end `startTime + chunkDuration`, and reformat. -/
def adjustEntry (startTime chunkDuration : ℚ) (entry : TranscriptEntry) : TranscriptEntry :=
  let entryTime : ℚ := (parseTimeToSeconds entry.timestamp : ℚ)
  let adjustedTime := min (entryTime + startTime) (startTime + chunkDuration)
  ⟨formatTime adjustedTime, entry.speaker, entry.text⟩

/-- The result mapping of a successful `processChunk` (line 99):
every parsed entry is adjusted. -/
def processChunkEntries (startTime chunkDuration : ℚ)
    (parsed : List TranscriptEntry) : List TranscriptEntry :=
  parsed.map (adjustEntry startTime chunkDuration)

/-- C3: for integral window start s and duration d, the emitted timestamp of
every adjusted entry is `min (parsedSeconds + s) (s + d)` reformatted as mm:ss
(witnessed by parsing it back), this value never exceeds the window end
`s + d`, and an entry whose window-relative time exceeds d is clamped to
exactly `s + d`. -/
theorem processChunk_timestamp_clamped (s d : ℕ) (entry : TranscriptEntry)
    (hwf : timestampWF entry.timestamp) :
    (adjustEntry (s : ℚ) (d : ℚ) entry).timestamp =
        formatTime ((min (parseTimeToSeconds entry.timestamp + s) (s + d) : ℕ) : ℚ) ∧
    parseTimeToSeconds? ((adjustEntry (s : ℚ) (d : ℚ) entry).timestamp) =
        some (min (parseTimeToSeconds entry.timestamp + s) (s + d)) ∧
    min (parseTimeToSeconds entry.timestamp + s) (s + d) ≤ s + d ∧
    (d < parseTimeToSeconds entry.timestamp →
      min (parseTimeToSeconds entry.timestamp + s) (s + d) = s + d) := by
  have hcast : ((min (parseTimeToSeconds entry.timestamp + s) (s + d) : ℕ) : ℚ) =
      min ((parseTimeToSeconds entry.timestamp : ℚ) + (s : ℚ)) ((s : ℚ) + (d : ℚ)) := by
    push_cast
    rfl
  have h1 : (adjustEntry (s : ℚ) (d : ℚ) entry).timestamp =
      formatTime ((min (parseTimeToSeconds entry.timestamp + s) (s + d) : ℕ) : ℚ) := by
    unfold adjustEntry
    rw [hcast]
  refine ⟨h1, ?_, min_le_right _ _, ?_⟩
  · rw [h1]
    exact parse_formatTime _
  · intro hd
    exact min_eq_right (by omega)

/-- Witness for C3 at s = 60, d = 180 and a hallucinated entry at 05:00
(window-relative 300 > 180): the clamp lands exactly at s + d = 240. -/
theorem processChunk_timestamp_clamped_witness :
    parseTimeToSeconds? ((adjustEntry ((60 : ℕ) : ℚ) ((180 : ℕ) : ℚ)
        ⟨"05:00", "Speaker 1", "x"⟩).timestamp) =
      some (min (parseTimeToSeconds "05:00" + 60) (60 + 180)) ∧
    min (parseTimeToSeconds "05:00" + 60) (60 + 180) = 60 + 180 :=
  ⟨(processChunk_timestamp_clamped 60 180 ⟨"05:00", "Speaker 1", "x"⟩ (by decide)).2.1,
    (processChunk_timestamp_clamped 60 180 ⟨"05:00", "Speaker 1", "x"⟩ (by decide)).2.2.2
      (by decide)⟩

/-- Model of JS `String.prototype.includes` via prefix search. -/
def includesAux (sub : List Char) : List Char → Bool
  | [] => sub.isEmpty
  | c :: rest => sub.isPrefixOf (c :: rest) || includesAux sub rest

/-- `errMsg.includes(sub)`. -/
def includesSub (s sub : String) : Bool := includesAux sub.data s.data

/-- The content-safety soft-failure text of `processChunk` (line 111). -/
def safetyMessage : String :=
  "This segment was skipped due to content safety filters. The transcription will continue with the next segment."

/-- The rate-limit soft-failure text of `processChunk` (line 112). -/
def rateLimitMessage : String := "Rate limit reached. Waiting before retrying."

/-- The catch branch of `processChunk` (`src/unnamed/part_000`, lines
107-120): an error whose message contains "SAFETY" or "429" is contained as a
single synthetic System entry stamped with the window start; every other
error is rethrown. -/
def processChunkCatch (startTime : ℚ) (errMsg : String) :
    Except String (List TranscriptEntry) :=
  if includesSub errMsg "SAFETY" || includesSub errMsg "429" then
    Except.ok [⟨formatTime startTime, "System",
      if includesSub errMsg "SAFETY" then safetyMessage else rateLimitMessage⟩]
  else Except.error errMsg

/-- C4: a content-safety or rate-limit (429) failure is not propagated — the
processor returns exactly one synthetic entry with the formatted window start,
speaker "System" and an explanatory message; every other failure is rethrown
to the caller. -/
theorem processChunk_error_containment (startTime : ℚ) (errMsg : String) :
    ((includesSub errMsg "SAFETY" = true ∨ includesSub errMsg "429" = true) →
      processChunkCatch startTime errMsg =
        Except.ok [⟨formatTime startTime, "System",
          if includesSub errMsg "SAFETY" then safetyMessage else rateLimitMessage⟩]) ∧
    (includesSub errMsg "SAFETY" = false → includesSub errMsg "429" = false →
      processChunkCatch startTime errMsg = Except.error errMsg) := by
  constructor
  · intro h
    unfold processChunkCatch
    rw [if_pos]
    rcases h with h | h <;> rw [h] <;> simp
  · intro h1 h2
    unfold processChunkCatch
    rw [if_neg]
    rw [h1, h2]
    simp

/-- Witness for C4: a 429 message is contained as the System rate-limit entry;
an unrelated message is rethrown. -/
theorem processChunk_error_containment_witness :
    processChunkCatch 60 "got 429" =
      Except.ok [⟨formatTime 60, "System",
        if includesSub "got 429" "SAFETY" then safetyMessage else rateLimitMessage⟩] ∧
    processChunkCatch 60 "boom" = Except.error "boom" :=
  ⟨(processChunk_error_containment 60 "got 429").1 (Or.inr (by decide)),
    (processChunk_error_containment 60 "boom").2 (by decide) (by decide)⟩

/-- The status heuristic of the success-path record (`src/unnamed/part_000`,
line 213): `chunkTranscript[0]?.speaker === 'System' ? 'error' : 'success'`;
an empty list gives `undefined ≠ 'System'`, hence success. -/
def chunkStatus (chunkTranscript : List TranscriptEntry) : String :=
  match chunkTranscript with
  | [] => "success"
  | e :: _ => if e.speaker = "System" then "error" else "success"

/-- C5 counterexample: a two-entry list whose first entry merely carries
speaker "System" is marked error although it is not the single synthetic
placeholder (it does not even have exactly one entry), contradicting the
claimed "error iff exactly the single synthetic System placeholder". -/
theorem chunkStatus_counterexample :
    chunkStatus [⟨"00:00", "System", "chatter"⟩, ⟨"00:05", "Alice", "hi"⟩] = "error" ∧
    ([⟨"00:00", "System", "chatter"⟩, ⟨"00:05", "Alice", "hi"⟩] :
      List TranscriptEntry).length ≠ 1 := by
  constructor
  · rfl
  · decide

/-- C5 amended: the record status is error iff the returned entry list is
nonempty and its first entry's speaker is "System". -/
theorem chunkStatus_error_iff (l : List TranscriptEntry) :
    chunkStatus l = "error" ↔ ∃ e rest, l = e :: rest ∧ e.speaker = "System" := by
  cases l with
  | nil =>
    constructor
    · intro h
      exact absurd h (by decide)
    · rintro ⟨e, rest, h, _⟩
      exact List.noConfusion h
  | cons e rest =>
    constructor
    · intro h
      refine ⟨e, rest, rfl, ?_⟩
      by_contra hs
      rw [show chunkStatus (e :: rest) =
          if e.speaker = "System" then "error" else "success" from rfl, if_neg hs] at h
      exact absurd h (by decide)
    · rintro ⟨e2, rest2, heq, hs⟩
      have he : e2 = e := by
        injection heq with h1 _
        exact h1.symm
      subst he
      rw [show chunkStatus (e2 :: rest) =
        if e2.speaker = "System" then "error" else "success" from rfl, if_pos hs]

/-- Progress record as streamed per window; `processedTimestamp` (wall clock,
`Date.now()`) is omitted from the embedding. -/
structure ProgressRecord where
  startTime : ℚ
  endTime : ℚ
  totalDuration : ℚ
  status : String
  retryCount : ℕ
  retryAfter : Option ℕ
  entries : List TranscriptEntry
deriving DecidableEq, Repr

/-- The rate-limit test of the orchestrator catch branch (line 228). -/
def isRateLimitMsg (msg : String) : Bool :=
  includesSub msg "429" || includesSub msg "Too Many Requests"

/-- The record enqueued for one window by the `POST` loop: success path
(lines 208-216) with the `chunkStatus` heuristic, or hard-failure path
(lines 231-246) with a synthetic System entry and a `retryAfter` backoff. -/
def recordFor (duration : ℚ) (w : ℚ × ℚ)
    (outcome : Except String (List TranscriptEntry)) : ProgressRecord :=
  match outcome with
  | Except.ok entries =>
    { startTime := w.1, endTime := w.1 + w.2, totalDuration := duration,
      status := chunkStatus entries, retryCount := 0, retryAfter := none,
      entries := entries }
  | Except.error msg =>
    { startTime := w.1, endTime := w.1 + w.2, totalDuration := duration,
      status := "error", retryCount := 0,
      retryAfter := some (if isRateLimitMsg msg then 15000 else 5000),
      entries := [⟨formatTime w.1, "System",
        if isRateLimitMsg msg then "Rate limit reached. Waiting before continuing."
        else "Error processing segment. Will retry shortly."⟩] }

/-- An item of the chunked response stream. -/
inductive StreamItem where
  | record : ProgressRecord → StreamItem
  | close : StreamItem
deriving DecidableEq, Repr

/-- The output stream of the `POST` handler (lines 188-254): one record per
planned window, in window order — the per-window try/catch makes record
emission total, the catch branch enqueues an error record and falls through
to the next iteration — followed by a single `controller.close()`. The
`outcome` oracle stands for the per-window result of `processChunk`. -/
def runStream (duration : ℚ) (initialStartTime : ℤ)
    (outcome : ℕ → Except String (List TranscriptEntry)) : List StreamItem :=
  ((planWindows duration initialStartTime).enum.map
    (fun p => StreamItem.record (recordFor duration p.2 (outcome p.1)))) ++
    [StreamItem.close]

def getRecord : StreamItem → Option ProgressRecord
  | StreamItem.record r => some r
  | StreamItem.close => none

theorem recordFor_startTime (duration : ℚ) (w : ℚ × ℚ)
    (o : Except String (List TranscriptEntry)) : (recordFor duration w o).startTime = w.1 := by
  cases o <;> rfl

theorem filterMap_getRecord_map_record (l : List ProgressRecord) :
    (l.map StreamItem.record).filterMap getRecord = l := by
  induction l with
  | nil => rfl
  | cons r rs ih =>
    rw [List.map_cons, List.filterMap_cons]
    simp only [getRecord]
    rw [ih]

theorem enumFrom_get? {α : Type} :
    ∀ (l : List α) (base i : ℕ),
      (List.enumFrom base l).get? i = (l.get? i).map (fun a => (base + i, a)) := by
  intro l
  induction l with
  | nil =>
    intro base i
    cases i <;> rfl
  | cons x xs ih =>
    intro base i
    match i with
    | 0 => rfl
    | j + 1 =>
      rw [show List.enumFrom base (x :: xs) = (base, x) :: List.enumFrom (base + 1) xs from rfl]
      rw [List.get?_cons_succ, List.get?_cons_succ, ih (base + 1) j]
      cases xs.get? j <;> simp <;> omega

/-- The per-window records of one run, in window order. -/
def streamRecords (duration : ℚ) (initialStartTime : ℤ)
    (outcome : ℕ → Except String (List TranscriptEntry)) : List ProgressRecord :=
  (planWindows duration initialStartTime).enum.map
    (fun p => recordFor duration p.2 (outcome p.1))

theorem runStream_eq (duration : ℚ) (resume : ℤ)
    (outcome : ℕ → Except String (List TranscriptEntry)) :
    runStream duration resume outcome =
      (streamRecords duration resume outcome).map StreamItem.record ++ [StreamItem.close] := by
  unfold runStream streamRecords
  rw [List.map_map]
  rfl

/-- C6: the output stream is exactly one record per planned window, in window
order (record i carries window i's start), followed by exactly one close; a
propagated (hard) failure in window i still yields a record for window i with
status error, and — the stream covering every planned window — the run
continues with the remaining windows instead of aborting. -/
theorem orchestrator_one_record_per_window (duration : ℚ) (resume : ℤ)
    (outcome : ℕ → Except String (List TranscriptEntry)) :
    runStream duration resume outcome =
      (streamRecords duration resume outcome).map StreamItem.record ++ [StreamItem.close] ∧
    (streamRecords duration resume outcome).map ProgressRecord.startTime =
      (planWindows duration resume).map Prod.fst ∧
    ∀ (i : ℕ) (msg : String) (w : ℚ × ℚ), outcome i = Except.error msg →
      (planWindows duration resume).get? i = some w →
      (streamRecords duration resume outcome).get? i =
          some (recordFor duration w (Except.error msg)) ∧
      (recordFor duration w (Except.error msg)).status = "error" := by
  refine ⟨runStream_eq duration resume outcome, ?_, ?_⟩
  · unfold streamRecords
    rw [List.map_map]
    have h1 : (planWindows duration resume).map Prod.fst =
        (planWindows duration resume).enum.map (fun p => p.2.1) := by
      conv_lhs => rw [← List.enum_map_snd (planWindows duration resume)]
      rw [List.map_map]
      rfl
    rw [h1]
    apply List.map_congr_left
    intro p _
    exact recordFor_startTime duration p.2 (outcome p.1)
  · intro i msg w herr hw
    refine ⟨?_, rfl⟩
    have hrec : (streamRecords duration resume outcome).get? i =
        some (recordFor duration w (outcome i)) := by
      unfold streamRecords
      rw [List.get?_map, show (planWindows duration resume).enum =
          List.enumFrom 0 (planWindows duration resume) from rfl, enumFrom_get?, hw]
      simp
    rw [hrec, herr]

/-- Witness for C6: with every window failing hard, window 0 of a 300-second
run still gets an error record carrying its own start. -/
theorem orchestrator_one_record_per_window_witness :
    (streamRecords 300 0 (fun _ => Except.error "x")).get? 0 =
      some (recordFor 300 ((0 : ℚ), (180 : ℚ)) (Except.error "x")) ∧
    (recordFor 300 ((0 : ℚ), (180 : ℚ)) (Except.error "x")).status = "error" := by
  have hget : (planWindows 300 0).get? 0 = some ((0 : ℚ), (180 : ℚ)) := by
    rw [planWindows_zero, planLoop_zero_cons 300 (by norm_num), List.get?_cons_zero]
    norm_num [CHUNK_DURATION, CHUNK_OVERLAP]
  exact (orchestrator_one_record_per_window 300 0 (fun _ => Except.error "x")).2.2 0 "x"
    ((0 : ℚ), (180 : ℚ)) rfl hget

/-- The client run state of the page component (`src/unnamed/part_001`):
the displayed transcript and the high-water mark. -/
structure ClientState where
  transcriptArray : List TranscriptEntry
  processedDuration : ℕ
  lastProcessedTimestamp : String
deriving DecidableEq, Repr

/-- `getSecondsFromTimestamp` of the page component (lines 25-28): identical
split/parse logic to `parseTimeToSeconds`. -/
def getSecondsFromTimestamp (timestamp : String) : ℕ := parseTimeToSeconds timestamp

/-- `updateProcessedDuration` (`src/unnamed/part_001`, lines 30-36): advance
the high-water mark only when the new timestamp is strictly later. -/
def updateProcessedDuration (st : ClientState) (timestamp : String) : ClientState :=
  let seconds := getSecondsFromTimestamp timestamp
  if st.processedDuration < seconds then
    { st with processedDuration := seconds, lastProcessedTimestamp := timestamp }
  else st

/-- The success-path filter of `handleSubmit` (lines 166-178): drop an entry
whose timestamp exceeds the known total duration, and drop an entry matching
an already-displayed one within 2 seconds with identical speaker and text. -/
def clientNewEntries (duration : ℚ) (transcriptArray : List TranscriptEntry)
    (entries : List TranscriptEntry) : List TranscriptEntry :=
  entries.filter fun entry =>
    if ((getSecondsFromTimestamp entry.timestamp : ℚ) > duration : Prop) then false
    else ! transcriptArray.any fun existing =>
      decide (((getSecondsFromTimestamp existing.timestamp : ℤ) -
        (getSecondsFromTimestamp entry.timestamp : ℤ)).natAbs < 2)
      && existing.speaker == entry.speaker
      && existing.text == entry.text

/-- The client re-sort (lines 181-183), the same stable ascending order by
parsed timestamp. -/
def sortClient (l : List TranscriptEntry) : List TranscriptEntry :=
  List.insertionSort
    (fun a b => getSecondsFromTimestamp a.timestamp ≤ getSecondsFromTimestamp b.timestamp) l

/-- The success branch of the stream consumer (lines 156-188): when the
filter keeps at least one entry, append the kept entries, re-sort, and advance
the high-water mark to the last kept entry's timestamp. -/
def handleSuccessEntries (duration : ℚ) (st : ClientState)
    (entries : List TranscriptEntry) : ClientState :=
  if entries.isEmpty then st
  else
    match (clientNewEntries duration st.transcriptArray entries).getLast? with
    | none => st
    | some lastEntry =>
      updateProcessedDuration
        { st with transcriptArray :=
            sortClient (st.transcriptArray ++ clientNewEntries duration st.transcriptArray entries) }
        lastEntry.timestamp

/-- C7 counterexample: an incoming entry 3 seconds from an already-displayed
entry with identical speaker and text — a duplicate under the claimed
5-second Merger rule — is nevertheless appended by the client, whose dedup
threshold is 2 seconds (`src/unnamed/part_001`, line 174). -/
theorem client_dedup_counterexample :
    (handleSuccessEntries 1000 ⟨[⟨"00:10", "A", "x"⟩], 10, "00:10"⟩
        [⟨"00:13", "A", "x"⟩]).transcriptArray =
      [⟨"00:10", "A", "x"⟩, ⟨"00:13", "A", "x"⟩] ∧
    ((getSecondsFromTimestamp "00:10" : ℤ) -
      (getSecondsFromTimestamp "00:13" : ℤ)).natAbs < 5 := by
  constructor
  · decide
  · decide

theorem clientNewEntries_mem (duration : ℚ) (arr entries : List TranscriptEntry)
    (e : TranscriptEntry) :
    e ∈ clientNewEntries duration arr entries ↔
      e ∈ entries ∧ (getSecondsFromTimestamp e.timestamp : ℚ) ≤ duration ∧
        ∀ ex ∈ arr, ¬(((getSecondsFromTimestamp ex.timestamp : ℤ) -
          (getSecondsFromTimestamp e.timestamp : ℤ)).natAbs < 2 ∧
          ex.speaker = e.speaker ∧ ex.text = e.text) := by
  unfold clientNewEntries
  rw [List.mem_filter]
  constructor
  · rintro ⟨hmem, hpred⟩
    by_cases hgt : (getSecondsFromTimestamp e.timestamp : ℚ) > duration
    · rw [if_pos hgt] at hpred
      exact absurd hpred (by simp)
    · rw [if_neg hgt] at hpred
      refine ⟨hmem, le_of_not_lt hgt, ?_⟩
      intro ex hex hcon
      have hany : arr.any (fun existing =>
          decide (((getSecondsFromTimestamp existing.timestamp : ℤ) -
            (getSecondsFromTimestamp e.timestamp : ℤ)).natAbs < 2)
          && existing.speaker == e.speaker
          && existing.text == e.text) = true := by
        rw [List.any_eq_true]
        refine ⟨ex, hex, ?_⟩
        rw [Bool.and_eq_true, Bool.and_eq_true]
        exact ⟨⟨decide_eq_true hcon.1, beq_iff_eq.mpr hcon.2.1⟩, beq_iff_eq.mpr hcon.2.2⟩
      rw [hany] at hpred
      exact absurd hpred (by simp)
  · rintro ⟨hmem, hle, hno⟩
    refine ⟨hmem, ?_⟩
    rw [if_neg (not_lt.mpr hle)]
    have hany : arr.any (fun existing =>
        decide (((getSecondsFromTimestamp existing.timestamp : ℤ) -
          (getSecondsFromTimestamp e.timestamp : ℤ)).natAbs < 2)
        && existing.speaker == e.speaker
        && existing.text == e.text) = false := by
      by_contra hcon
      have hsome := List.any_eq_true.mp (Bool.eq_true_of_ne_false hcon)
      obtain ⟨ex, hex, hp⟩ := hsome
      rw [Bool.and_eq_true, Bool.and_eq_true] at hp
      exact hno ex hex ⟨of_decide_eq_true hp.1.1, beq_iff_eq.mp hp.1.2, beq_iff_eq.mp hp.2⟩
    rw [hany]
    rfl

/-- C7 amended: on a success record the client appends exactly the entries
that pass the validity bound (timestamp within total duration) and the
client's own dedup rule — absolute difference strictly below 2 seconds with
identical speaker and identical text against an already-displayed entry —
re-sorting the result; and when at least one entry is appended, the
`processedDuration` high-water mark becomes the maximum of its old value and
the last appended entry's parsed timestamp. -/
theorem client_append_highwater (duration : ℚ) (st : ClientState)
    (entries : List TranscriptEntry) :
    (∀ e, e ∈ clientNewEntries duration st.transcriptArray entries ↔
      e ∈ entries ∧ (getSecondsFromTimestamp e.timestamp : ℚ) ≤ duration ∧
        ∀ ex ∈ st.transcriptArray,
          ¬(((getSecondsFromTimestamp ex.timestamp : ℤ) -
            (getSecondsFromTimestamp e.timestamp : ℤ)).natAbs < 2 ∧
            ex.speaker = e.speaker ∧ ex.text = e.text)) ∧
    (∀ lastEntry,
      (clientNewEntries duration st.transcriptArray entries).getLast? = some lastEntry →
      (handleSuccessEntries duration st entries).transcriptArray =
          sortClient (st.transcriptArray ++
            clientNewEntries duration st.transcriptArray entries) ∧
      (handleSuccessEntries duration st entries).processedDuration =
          max st.processedDuration (getSecondsFromTimestamp lastEntry.timestamp)) ∧
    ((clientNewEntries duration st.transcriptArray entries).getLast? = none →
      handleSuccessEntries duration st entries = st) := by
  have hfields : ∀ (st' : ClientState) (ts : String),
      (updateProcessedDuration st' ts).transcriptArray = st'.transcriptArray ∧
      (updateProcessedDuration st' ts).processedDuration =
        max st'.processedDuration (getSecondsFromTimestamp ts) := by
    intro st' ts
    simp only [updateProcessedDuration]
    by_cases h : st'.processedDuration < getSecondsFromTimestamp ts
    · rw [if_pos h]
      exact ⟨rfl, (Nat.max_eq_right (Nat.le_of_lt h)).symm⟩
    · rw [if_neg h]
      exact ⟨rfl, (Nat.max_eq_left (by omega)).symm⟩
  refine ⟨clientNewEntries_mem duration st.transcriptArray entries, ?_, ?_⟩
  · intro lastEntry hlast
    by_cases hemp : entries.isEmpty = true
    · have hnil : entries = [] := by
        cases entries
        · rfl
        · simp at hemp
      subst hnil
      have : clientNewEntries duration st.transcriptArray [] = [] := rfl
      rw [this] at hlast
      exact Option.noConfusion hlast
    · have hrun : handleSuccessEntries duration st entries =
          updateProcessedDuration
            { st with transcriptArray := sortClient (st.transcriptArray ++
                clientNewEntries duration st.transcriptArray entries) }
            lastEntry.timestamp := by
        unfold handleSuccessEntries
        rw [if_neg hemp, hlast]
      rw [hrun]
      exact ⟨(hfields _ _).1, (hfields _ _).2⟩
  · intro hnone
    unfold handleSuccessEntries
    by_cases hemp : entries.isEmpty = true
    · rw [if_pos hemp]
    · rw [if_neg hemp, hnone]

/-- Witness for C7 (amended): at the concrete 3-second-apart input above,
the last appended entry advances the high-water mark from 10 to 13. -/
theorem client_append_highwater_witness :
    (handleSuccessEntries 1000 ⟨[⟨"00:10", "A", "x"⟩], 10, "00:10"⟩
        [⟨"00:13", "A", "x"⟩]).processedDuration =
      max 10 (getSecondsFromTimestamp "00:13") :=
  ((client_append_highwater 1000 ⟨[⟨"00:10", "A", "x"⟩], 10, "00:10"⟩
      [⟨"00:13", "A", "x"⟩]).2.1 ⟨"00:13", "A", "x"⟩ (by decide)).2

theorem formatTime_floor (x : ℚ) (hx : 0 ≤ x) :
    formatTime x = formatTime ((⌊x⌋ : ℤ) : ℚ) := by
  have hfl_nonneg : 0 ≤ ⌊x⌋ := Int.floor_nonneg.mpr hx
  have hfl : (⌊x⌋ : ℤ) = ((⌊x⌋.toNat : ℕ) : ℤ) := (Int.toNat_of_nonneg hfl_nonneg).symm
  set n : ℕ := ⌊x⌋.toNat with hn
  have hcast : ((⌊x⌋ : ℤ) : ℚ) = (n : ℚ) := by
    rw [hfl]
    push_cast
    rfl
  have hxlb : (n : ℚ) ≤ x := by
    have h := Int.floor_le x
    rw [hfl] at h
    exact_mod_cast h
  have hxub : x < (n : ℚ) + 1 := by
    have h := Int.lt_floor_add_one x
    rw [hfl] at h
    exact_mod_cast h
  have hA : ⌊x / 60⌋ = ((n / 60 : ℕ) : ℤ) := by
    rw [Int.floor_eq_iff]
    constructor
    · rw [le_div_iff (by norm_num : (0:ℚ) < 60)]
      calc ((((n / 60 : ℕ) : ℤ)) : ℚ) * 60 ≤ (n : ℚ) := by
            exact_mod_cast (by omega : n / 60 * 60 ≤ n)
        _ ≤ x := hxlb
    · rw [div_lt_iff (by norm_num : (0:ℚ) < 60)]
      calc x < (n : ℚ) + 1 := hxub
        _ ≤ (((((n / 60 : ℕ) : ℤ)) : ℚ) + 1) * 60 := by
            exact_mod_cast (by omega : n + 1 ≤ (n / 60 + 1) * 60)
  have hmodMod : jsMod x 60 = x - ((60 * (n / 60) : ℕ) : ℚ) := by
    unfold jsMod jsTrunc
    rw [if_pos (by positivity), hA, Int.cast_natCast]
    rw [show ((60 * (n / 60) : ℕ) : ℚ) = 60 * ((n / 60 : ℕ) : ℚ) by push_cast; ring]
  have hB : ⌊jsMod x 60⌋ = ((n % 60 : ℕ) : ℤ) := by
    rw [hmodMod, Int.floor_sub_nat, hfl]
    push_cast
    omega
  have hL1 : ⌊x / 60⌋ = ⌊(n : ℚ) / 60⌋ := by
    rw [hA, floor_natCast_div_sixty]
  have hL2 : ⌊jsMod x 60⌋ = ⌊jsMod (n : ℚ) 60⌋ := by
    rw [hB, jsMod_natCast]
    exact (Int.floor_natCast _).symm
  rw [hcast]
  unfold formatTime
  rw [hL1, hL2]

/-- C10: `parseTimeToSeconds` inverts `formatTime` on every whole-second
value, including values of an hour or more where the minutes field takes more
than two digits; and on fractional non-negative input `formatTime` floors —
it renders exactly what it renders for the floored value. -/
theorem formatTime_parse_roundtrip :
    (∀ s : ℕ, parseTimeToSeconds? (formatTime (s : ℚ)) = some s) ∧
    (∀ x : ℚ, 0 ≤ x → formatTime x = formatTime ((⌊x⌋ : ℤ) : ℚ)) :=
  ⟨parse_formatTime, formatTime_floor⟩

/-- Witness for C10 at 3725 seconds (= "62:05", beyond one hour) and at the
fractional value 7/2. -/
theorem formatTime_parse_roundtrip_witness :
    parseTimeToSeconds? (formatTime ((3725 : ℕ) : ℚ)) = some 3725 ∧
    (0 : ℚ) ≤ 7 / 2 ∧ formatTime (7 / 2 : ℚ) = formatTime ((⌊(7 / 2 : ℚ)⌋ : ℤ) : ℚ) :=
  ⟨formatTime_parse_roundtrip.1 3725, by norm_num,
    formatTime_parse_roundtrip.2 (7 / 2) (by norm_num)⟩
